import Mathlib

/-!
Shallow embedding of the geometry and layout core of the `boxes` panel
generator (`boxes/__init__.py`) and theorems settling the specification
claims about it.

The turtle state mirrors the cairo transform used by the Python code: a
translation `pos` plus the rotation column `(dx, dy) = (cos heading,
sin heading)` of the current matrix; the drawing primitives of this layer
only ever translate and rotate, so the matrix stays rigid and this pair is
exactly the information the code manipulates.  Every `context.arc`,
`context.arc_negative` and `context.line_to` run is recorded as a `Seg` in
global (canvas) coordinates.  Floating point arithmetic of the source is
modelled by exact real arithmetic, matching the specification's "within
floating tolerance" readings.
-/

open Real

namespace BoxesModel

/-- A path segment emitted through the cairo context, in global canvas
coordinates.  An `arc` records the center and radius of the circular arc
plus its signed sweep angle (`a2 - a1`, radians); a `line` records both
endpoints of a straight cut run. -/
inductive Seg where
  | line (p q : ℝ × ℝ)
  | arc (center : ℝ × ℝ) (radius sweep : ℝ)

/-- Turtle / canvas state: translation part of the current cairo matrix,
its rotation column `(dx, dy)`, and the segments emitted so far. -/
structure Turtle where
  pos : ℝ × ℝ
  dx : ℝ
  dy : ℝ
  segs : List Seg

/-- Initial state: identity transform, nothing drawn yet. -/
noncomputable def Turtle.init : Turtle := ⟨(0, 0), 1, 0, []⟩

/-- Map a point given in the current local frame to global coordinates
(application of the current cairo matrix). -/
noncomputable def toGlobal (t : Turtle) (p : ℝ × ℝ) : ℝ × ℝ :=
  (t.pos.1 + p.1 * t.dx - p.2 * t.dy, t.pos.2 + p.1 * t.dy + p.2 * t.dx)

/-- Model of `context.translate(a, b)`. -/
noncomputable def translate (t : Turtle) (a b : ℝ) : Turtle :=
  { t with pos := toGlobal t (a, b) }

/-- Model of `context.rotate(rad)`: post-multiplication of the matrix by a rotation. -/
noncomputable def rotate (t : Turtle) (rad : ℝ) : Turtle :=
  { t with
    dx := t.dx * Real.cos rad - t.dy * Real.sin rad
    dy := t.dy * Real.cos rad + t.dx * Real.sin rad }

/-- Model of `math.radians` and of the inline `degrees * math.pi / 180` conversions. -/
noncomputable def degToRad (d : ℝ) : ℝ := d * π / 180

/-- Model of `Boxes.moveTo(x, y, degrees)` (`__init__.py:853`): translate then
rotate; the `move_to(0, 0)` current-point resets emit nothing. -/
noncomputable def moveTo (t : Turtle) (x y degrees : ℝ) : Turtle :=
  rotate (translate t x y) (degToRad degrees)

/-- Local-frame end point of a cairo arc with center `(cx, cy)`, radius
`r` and final angle `a2` (cairo leaves the current point there). -/
noncomputable def arcEndpoint (cx cy r a2 : ℝ) : ℝ × ℝ :=
  (cx + r * Real.cos a2, cy + r * Real.sin a2)

/-- Model of `Boxes._continueDirection(rad)` (`__init__.py:881`): translate the
frame to the given local current point, then rotate by `rad`. -/
noncomputable def continueDirection (t : Turtle) (p : ℝ × ℝ) (rad : ℝ) : Turtle :=
  rotate (translate t p.1 p.2) rad

/-- One unsubdivided step of `Boxes.corner` (`__init__.py:504-529`), the
part below the tab handling and the subdivision guard.  The three branches
are the source's: a positive turn cuts with radius `radius + burn`, a
non-positive turn with `radius - burn` when `radius > burn`, and otherwise
the non-rounded inner-corner fallback with radius `burn - radius`.  Each
branch emits one arc whose local end point (the new cairo current point)
feeds `_continueDirection`. -/
noncomputable def cornerArc (burn : ℝ) (t : Turtle) (degrees radius : ℝ) : Turtle :=
  let rad := degrees * π / 180
  if 0 < degrees then
    -- context.arc(0, radius + burn, radius + burn, -pi/2, rad - pi/2)
    let r := radius + burn
    continueDirection
      { t with segs := t.segs ++ [Seg.arc (toGlobal t (0, r)) r rad] }
      (arcEndpoint 0 r r (rad - π / 2)) rad
  else if burn < radius then
    -- context.arc_negative(0, -(radius - burn), radius - burn, pi/2, rad + pi/2)
    let r := radius - burn
    continueDirection
      { t with segs := t.segs ++ [Seg.arc (toGlobal t (0, -r)) r rad] }
      (arcEndpoint 0 (-r) r (rad + π / 2)) rad
  else
    -- context.arc_negative(0, burn - radius, burn - radius, -pi/2, -pi/2 + rad)
    let r := burn - radius
    continueDirection
      { t with segs := t.segs ++ [Seg.arc (toGlobal t (0, r)) r rad] }
      (arcEndpoint 0 r r (-(π / 2) + rad)) rad

/-- The subdivision guard of `Boxes.corner` (`__init__.py:498`). -/
def subdivCond (burn degrees radius : ℝ) : Prop :=
  (0.5 * burn < radius ∧ 36 < |degrees|) ∨ 100 < |degrees|

/-- Number of sub-arcs used by the subdivision: `int(abs(degrees)/36.0) + 1`
(`__init__.py:499`; `int` truncates toward zero and the argument is
nonnegative, hence the floor). -/
noncomputable def cornerSteps (degrees : ℝ) : ℕ := (⌊|degrees| / 36⌋).toNat + 1

open Classical in
/-- Model of `Boxes.corner(degrees, radius)` (`__init__.py:454-529`) on the
`tabs = 0` path.  When the guard of line 498 holds the source calls itself
`steps` times with `degrees / steps`; the lemma `subdivCond_steps_false`
below shows the guard never holds again for `degrees / steps`, so the
recursion has depth one and iterating the unsubdivided step is an exact
rendering of it. -/
noncomputable def corner (burn : ℝ) (t : Turtle) (degrees radius : ℝ) : Turtle :=
  if subdivCond burn degrees radius then
    (fun s => cornerArc burn s (degrees / (cornerSteps degrees : ℝ)) radius)^[cornerSteps degrees] t
  else
    cornerArc burn t degrees radius

/-- Model of `Boxes.edge(length)` (`__init__.py:531-555`) on the `tabs = 0` path:
`line_to(length, 0)` followed by translating to the current point. -/
noncomputable def edge (t : Turtle) (length : ℝ) : Turtle :=
  { pos := toGlobal t (length, 0), dx := t.dx, dy := t.dy,
    segs := t.segs ++ [Seg.line t.pos (toGlobal t (length, 0))] }

/-- Signed sweep angle of a segment, when it is an arc. -/
def sweepOf : Seg → Option ℝ
  | .line _ _ => none
  | .arc _ _ sw => some sw

/-! Basic facts about `cornerArc`, `cornerSteps` and `corner`. -/

theorem cornerSteps_pos (d : ℝ) : 0 < cornerSteps d := Nat.succ_pos _

theorem cornerSteps_cast (d : ℝ) :
    ((cornerSteps d : ℕ) : ℝ) = ((⌊|d| / 36⌋ : ℤ) : ℝ) + 1 := by
  have hfl : (0 : ℤ) ≤ ⌊|d| / 36⌋ := Int.floor_nonneg.2 (by positivity)
  rw [← Int.toNat_of_nonneg hfl]
  unfold cornerSteps
  push_cast
  ring

theorem abs_div_cornerSteps_lt (d : ℝ) : |d / (cornerSteps d : ℝ)| < 36 := by
  have hn : (0 : ℝ) < (cornerSteps d : ℝ) := by
    exact_mod_cast cornerSteps_pos d
  have hlt : |d| / 36 < (cornerSteps d : ℝ) := by
    rw [cornerSteps_cast]
    exact Int.lt_floor_add_one _
  rw [abs_div, abs_of_pos hn, div_lt_iff₀ hn]
  have h36 : (0 : ℝ) < 36 := by norm_num
  calc |d| = |d| / 36 * 36 := by field_simp
  _ < (cornerSteps d : ℝ) * 36 := by
      exact mul_lt_mul_of_pos_right hlt h36
  _ = 36 * (cornerSteps d : ℝ) := by ring

/-- The subdivision guard never holds again for the subdivided angle:
the recursion in `Boxes.corner` has depth one. -/
theorem subdivCond_steps_false (burn d radius : ℝ) :
    ¬ subdivCond burn (d / (cornerSteps d : ℝ)) radius := by
  have h := abs_div_cornerSteps_lt d
  intro hc
  rcases hc with ⟨_, h36⟩ | h100
  · exact absurd h (not_lt.2 h36.le)
  · exact absurd (h.trans (by norm_num)) (not_lt.2 h100.le)

theorem two_le_cornerSteps (d : ℝ) (hd : 36 < |d|) : 2 ≤ cornerSteps d := by
  have h1 : (1 : ℤ) ≤ ⌊|d| / 36⌋ := by
    rw [Int.le_floor]
    rw [le_div_iff₀ (by norm_num : (0:ℝ) < 36)]
    push_cast
    linarith
  unfold cornerSteps
  omega

/-- Every unsubdivided corner step emits exactly one arc, whose sweep is
the turn angle in radians. -/
theorem cornerArc_segs (burn : ℝ) (t : Turtle) (d radius : ℝ) :
    ∃ c rr, (cornerArc burn t d radius).segs
      = t.segs ++ [Seg.arc c rr (degToRad d)] := by
  unfold cornerArc continueDirection rotate translate degToRad
  by_cases h1 : 0 < d
  · exact ⟨toGlobal t (0, radius + burn), radius + burn, by simp [h1]⟩
  · by_cases h2 : burn < radius
    · exact ⟨toGlobal t (0, -(radius - burn)), radius - burn, by simp [h1, h2]⟩
    · exact ⟨toGlobal t (0, burn - radius), burn - radius, by simp [h1, h2]⟩

theorem cornerArc_segs_map (burn : ℝ) (t : Turtle) (d radius : ℝ) :
    ((cornerArc burn t d radius).segs).map sweepOf
      = t.segs.map sweepOf ++ [some (degToRad d)] := by
  obtain ⟨c, rr, h⟩ := cornerArc_segs burn t d radius
  simp [h, sweepOf]

theorem iterate_cornerArc_segs_map (burn d radius : ℝ) :
    ∀ (n : ℕ) (t : Turtle),
      (((fun s => cornerArc burn s d radius)^[n] t).segs).map sweepOf
        = t.segs.map sweepOf ++ List.replicate n (some (degToRad d)) := by
  intro n
  induction n with
  | zero => intro t; simp
  | succ n ih =>
    intro t
    rw [Function.iterate_succ_apply, ih, cornerArc_segs_map,
      List.replicate_succ]
    simp

/-! Claim C7: a zero-angle corner is an identity on the transform. -/

/-- C7: for every radius `r ≥ 0` and burn `≥ 0`, `corner(0, r)` leaves the
current position and heading unchanged, in every branch of
`Boxes.corner` (including the minimum-radius inner-corner fallback taken
when `r ≤ burn`). -/
theorem corner_zero_identity (burn radius : ℝ) (t : Turtle)
    (hb : 0 ≤ burn) (hr : 0 ≤ radius) :
    (corner burn t 0 radius).pos = t.pos ∧
    (corner burn t 0 radius).dx = t.dx ∧
    (corner burn t 0 radius).dy = t.dy := by
  have hcond : ¬ subdivCond burn 0 radius := by
    simp [subdivCond]
  rw [corner, if_neg hcond]
  unfold cornerArc continueDirection rotate translate toGlobal arcEndpoint
  by_cases h2 : burn < radius
  · simp [h2, Real.cos_pi_div_two, Real.sin_pi_div_two]
  · simp [h2, Real.cos_pi_div_two, Real.sin_pi_div_two]

/-- Witness for C7 at `burn = 1`, `r = 5`. -/
theorem corner_zero_identity_witness :
    (0 : ℝ) ≤ 1 ∧ (0 : ℝ) ≤ 5 ∧
    ((corner 1 Turtle.init 0 5).pos = Turtle.init.pos ∧
     (corner 1 Turtle.init 0 5).dx = Turtle.init.dx ∧
     (corner 1 Turtle.init 0 5).dy = Turtle.init.dy) :=
  ⟨by norm_num, by norm_num,
    corner_zero_identity 1 5 Turtle.init (by norm_num) (by norm_num)⟩

/-! Claim C8: subdivision of large-angle corners. -/

/-- C8, counterexample to the claim as stated: with `burn = 1` the call
`corner(50, 2/5)` has `|degrees| > 36` and a nonzero radius, yet the
radius is below `0.5 * burn`, so the guard of line 498 fails and a single
50 degree arc is emitted instead of multiple sub-arcs. -/
theorem corner_no_subdivision_counterexample :
    (36 : ℝ) < |(50 : ℝ)| ∧ ((2 : ℝ) / 5) ≠ 0 ∧
    (corner 1 Turtle.init 50 (2 / 5)).segs.length = 1 := by
  refine ⟨by rw [abs_of_nonneg] <;> norm_num, by norm_num, ?_⟩
  have hcond : ¬ subdivCond 1 50 (2 / 5) := by
    simp only [subdivCond, not_or, not_and, not_lt]
    rw [abs_of_nonneg (by norm_num : (0:ℝ) ≤ 50)]
    constructor
    · intro h
      norm_num at h
    · norm_num
  rw [corner, if_neg hcond]
  obtain ⟨c, rr, h⟩ := cornerArc_segs 1 Turtle.init 50 (2 / 5)
  rw [h]
  simp [Turtle.init]

/-- C8, amended: when the subdivision guard of line 498 does hold, i.e.
`|degrees| > 100`, or `|degrees| > 36` together with
`radius > 0.5 * burn`, the turn is cut into
`steps = int(|degrees|/36) + 1 ≥ 2` sub-arcs of equal sweep
`degrees / steps`, each of magnitude below 36 degrees. -/
theorem corner_subdivides (burn degrees radius : ℝ) (t : Turtle)
    (h : subdivCond burn degrees radius) :
    2 ≤ cornerSteps degrees ∧
    |degrees / (cornerSteps degrees : ℝ)| < 36 ∧
    ((corner burn t degrees radius).segs).map sweepOf
      = t.segs.map sweepOf
        ++ List.replicate (cornerSteps degrees)
            (some (degToRad (degrees / (cornerSteps degrees : ℝ)))) := by
  have h36 : 36 < |degrees| := by
    rcases h with ⟨_, h36⟩ | h100
    · exact h36
    · linarith
  refine ⟨two_le_cornerSteps degrees h36, abs_div_cornerSteps_lt degrees, ?_⟩
  rw [corner, if_pos h]
  exact iterate_cornerArc_segs_map burn _ radius (cornerSteps degrees) t

/-- Witness for the amended C8 at `burn = 0`, `degrees = 360`,
`radius = 1` (the guard holds through `|360| > 100`). -/
theorem corner_subdivides_witness :
    subdivCond 0 360 1 ∧
    (2 ≤ cornerSteps 360 ∧
     |(360 : ℝ) / (cornerSteps 360 : ℝ)| < 36 ∧
     ((corner 0 Turtle.init 360 1).segs).map sweepOf
       = Turtle.init.segs.map sweepOf
         ++ List.replicate (cornerSteps 360)
             (some (degToRad (360 / (cornerSteps 360 : ℝ))))) := by
  have hc : subdivCond 0 360 1 := by
    right
    rw [abs_of_nonneg (by norm_num : (0:ℝ) ≤ 360)]
    norm_num
  exact ⟨hc, corner_subdivides 0 360 1 Turtle.init hc⟩

/-! Claim C1: a hole of requested radius `r` is cut with radius
`r - burn`, centered at the requested position. -/

open Classical in
/-- Model of `Boxes.hole(x, y, r, d)` (`__init__.py:1035-1050`) on the `tabs = 0`
path: resolve the radius from `r` or the diameter `d`, clamp radii below
the burn to `burn + 1e-9`, move to the right edge of the hole facing
down, and cut a full `-360` degree turn of corner radius `r`.  The
`@restore` decorator saves the transform and puts it back afterwards; the
emitted segments remain. -/
noncomputable def hole (burn : ℝ) (t : Turtle) (x y r d : ℝ) : Turtle :=
  let r1 := if r = 0 then d / 2 else r
  let r2 := if r1 < burn then burn + 1e-9 else r1
  let rr := r2 - burn
  let u := corner burn (moveTo t (x + rr) y (-90)) (-360) r2
  { u with pos := t.pos, dx := t.dx, dy := t.dy }

/-- Segments of the inner-cut branch of `cornerArc` (non-positive turn
with `radius > burn`). -/
theorem cornerArc_inner_segs (burn : ℝ) (t : Turtle) (d radius : ℝ)
    (hd : ¬ 0 < d) (hr : burn < radius) :
    (cornerArc burn t d radius).segs
      = t.segs ++ [Seg.arc (toGlobal t (0, -(radius - burn)))
          (radius - burn) (d * π / 180)] := by
  unfold cornerArc continueDirection rotate translate
  rw [if_neg hd, if_pos hr]

/-- Position after the inner-cut branch of `cornerArc`. -/
theorem cornerArc_inner_pos (burn : ℝ) (t : Turtle) (d radius : ℝ)
    (hd : ¬ 0 < d) (hr : burn < radius) :
    (cornerArc burn t d radius).pos
      = toGlobal t (-((radius - burn) * Real.sin (d * π / 180)),
          (radius - burn) * Real.cos (d * π / 180) - (radius - burn)) := by
  unfold cornerArc continueDirection rotate translate arcEndpoint
  rw [if_neg hd, if_pos hr]
  simp only [Real.cos_add_pi_div_two, Real.sin_add_pi_div_two, toGlobal,
    Prod.mk.injEq]
  constructor <;> ring

/-- Rotation column after the inner-cut branch of `cornerArc`. -/
theorem cornerArc_inner_dx (burn : ℝ) (t : Turtle) (d radius : ℝ)
    (hd : ¬ 0 < d) (hr : burn < radius) :
    (cornerArc burn t d radius).dx
      = t.dx * Real.cos (d * π / 180) - t.dy * Real.sin (d * π / 180) := by
  unfold cornerArc continueDirection rotate translate
  rw [if_neg hd, if_pos hr]

/-- Rotation column after the inner-cut branch of `cornerArc`. -/
theorem cornerArc_inner_dy (burn : ℝ) (t : Turtle) (d radius : ℝ)
    (hd : ¬ 0 < d) (hr : burn < radius) :
    (cornerArc burn t d radius).dy
      = t.dy * Real.cos (d * π / 180) + t.dx * Real.sin (d * π / 180) := by
  unfold cornerArc continueDirection rotate translate
  rw [if_neg hd, if_pos hr]

/-- The center of each sub-arc of a full-turn hole stays at the hole
center, and the invariant pinning the turtle to the cut circle is
preserved from one sub-arc to the next. -/
theorem iterate_cornerArc_inner (burn radius x y d : ℝ)
    (hd : ¬ 0 < d) (hr : burn < radius) :
    ∀ (n : ℕ) (t : Turtle),
      t.pos.1 + (radius - burn) * t.dy = x →
      t.pos.2 - (radius - burn) * t.dx = y →
      ((fun s => cornerArc burn s d radius)^[n] t).segs
          = t.segs ++ List.replicate n
              (Seg.arc (x, y) (radius - burn) (d * π / 180)) ∧
      ((fun s => cornerArc burn s d radius)^[n] t).pos.1
          + (radius - burn) * ((fun s => cornerArc burn s d radius)^[n] t).dy = x ∧
      ((fun s => cornerArc burn s d radius)^[n] t).pos.2
          - (radius - burn) * ((fun s => cornerArc burn s d radius)^[n] t).dx = y := by
  intro n
  induction n with
  | zero => intro t hx hy; simp [hx, hy]
  | succ n ih =>
    intro t hx hy
    have hcenter : toGlobal t (0, -(radius - burn)) = (x, y) := by
      simp only [toGlobal, Prod.mk.injEq]
      constructor
      · linear_combination hx
      · linear_combination hy
    have hx' : (cornerArc burn t d radius).pos.1
        + (radius - burn) * (cornerArc burn t d radius).dy = x := by
      rw [cornerArc_inner_pos burn t d radius hd hr,
        cornerArc_inner_dy burn t d radius hd hr]
      simp only [toGlobal]
      linear_combination hx
    have hy' : (cornerArc burn t d radius).pos.2
        - (radius - burn) * (cornerArc burn t d radius).dx = y := by
      rw [cornerArc_inner_pos burn t d radius hd hr,
        cornerArc_inner_dx burn t d radius hd hr]
      simp only [toGlobal]
      linear_combination hy
    obtain ⟨hsegs, hinv1, hinv2⟩ := ih (cornerArc burn t d radius) hx' hy'
    rw [Function.iterate_succ_apply]
    refine ⟨?_, hinv1, hinv2⟩
    rw [hsegs, cornerArc_inner_segs burn t d radius hd hr, hcenter]
    simp [List.replicate_succ]

theorem cornerSteps_neg360 : cornerSteps (-360) = 11 := by
  have h : ⌊|(-360 : ℝ)| / 36⌋ = 10 := by
    rw [abs_of_nonpos (by norm_num : (-360 : ℝ) ≤ 0)]
    norm_num
  unfold cornerSteps
  rw [h]
  rfl

/-- C1: for every requested radius `r` exceeding the burn, `hole(x, y, r)`
emits exactly eleven sub-arcs, all lying on the circle of radius
`r - burn` centered at `(x, y)`. -/
theorem hole_emits_circle_r_minus_burn (burn x y r : ℝ)
    (hb : 0 ≤ burn) (hr : burn < r) :
    (hole burn Turtle.init x y r 0).segs
      = List.replicate 11
          (Seg.arc (x, y) (r - burn) (degToRad (-360 / 11))) := by
  have hr0 : r ≠ 0 := by intro h; rw [h] at hr; linarith
  have hnotlt : ¬ r < burn := by linarith
  unfold hole
  simp only [if_neg hr0, if_neg hnotlt]
  set m := moveTo Turtle.init (x + (r - burn)) y (-90) with hm
  have hmpos : m.pos = (x + (r - burn), y) := by
    rw [hm]
    unfold moveTo rotate translate toGlobal degToRad Turtle.init
    simp
  have h90 : (-90 : ℝ) * π / 180 = -(π / 2) := by ring
  have hmdx : m.dx = 0 := by
    rw [hm]
    unfold moveTo rotate translate degToRad Turtle.init
    rw [h90]
    simp [Real.cos_pi_div_two]
  have hmdy : m.dy = -1 := by
    rw [hm]
    unfold moveTo rotate translate degToRad Turtle.init
    rw [h90]
    simp [Real.sin_pi_div_two]
  have hmsegs : m.segs = [] := by
    rw [hm]
    unfold moveTo rotate translate Turtle.init
    rfl
  have hcond : subdivCond burn (-360) r := by
    right
    rw [abs_of_nonpos (by norm_num : (-360 : ℝ) ≤ 0)]
    norm_num
  rw [corner, if_pos hcond, cornerSteps_neg360]
  have hd : ¬ (0 : ℝ) < -360 / ((11 : ℕ) : ℝ) := by
    push_cast
    norm_num
  have hinv := iterate_cornerArc_inner burn r x y (-360 / ((11 : ℕ) : ℝ))
    hd hr 11 m
    (by rw [hmpos, hmdy]; ring)
    (by rw [hmpos, hmdx]; ring)
  rw [hinv.1, hmsegs]
  simp only [List.nil_append]
  unfold degToRad
  norm_num

/-- Witness for C1 at `burn = 1`, `x = 5`, `y = 7`, `r = 3`. -/
theorem hole_emits_circle_witness :
    (0 : ℝ) ≤ 1 ∧ (1 : ℝ) < 3 ∧
    (hole 1 Turtle.init 5 7 3 0).segs
      = List.replicate 11
          (Seg.arc (5, 7) (3 - 1) (degToRad (-360 / 11))) :=
  ⟨by norm_num, by norm_num,
    hole_emits_circle_r_minus_burn 1 5 7 3 (by norm_num) (by norm_num)⟩

/-! Claim C6: the 50 by 30 rectangle `polyline` returns the transform to
its initial state. -/

/-- Model of `Boxes.polyline(*args)` (`__init__.py:587-606`): even positions are
edge lengths, odd positions are corner angles (radius 0 when the angle is
given as a bare number, as in the claim's scenario). -/
noncomputable def polyline (burn : ℝ) : Turtle → List ℝ → Turtle
  | t, [] => t
  | t, [l] => edge t l
  | t, l :: a :: rest => polyline burn (corner burn (edge t l) a 0) rest

theorem edge_pos (t : Turtle) (L : ℝ) : (edge t L).pos = toGlobal t (L, 0) := rfl

theorem edge_segs (t : Turtle) (L : ℝ) :
    (edge t L).segs = t.segs ++ [Seg.line t.pos (toGlobal t (L, 0))] := rfl

theorem edge_dx (t : Turtle) (L : ℝ) : (edge t L).dx = t.dx := rfl

theorem edge_dy (t : Turtle) (L : ℝ) : (edge t L).dy = t.dy := rfl

/-- A 90 degree zero-radius corner: the cut arc has radius `burn`, the
frame advances by `(burn, burn)` locally and turns left. -/
theorem corner90 (burn : ℝ) (t : Turtle) (hb : 0 ≤ burn) :
    (corner burn t 90 0).pos = toGlobal t (burn, burn) ∧
    (corner burn t 90 0).dx = -t.dy ∧
    (corner burn t 90 0).dy = t.dx := by
  have habs : |(90 : ℝ)| = 90 := abs_of_nonneg (by norm_num)
  have hcond : ¬ subdivCond burn 90 0 := by
    unfold subdivCond
    rw [habs]
    push_neg
    exact ⟨fun h1 => absurd h1 (by linarith), by norm_num⟩
  rw [corner, if_neg hcond]
  unfold cornerArc continueDirection rotate translate arcEndpoint
  rw [if_pos (by norm_num : (0 : ℝ) < 90)]
  rw [show (90 : ℝ) * π / 180 = π / 2 by ring]
  simp only [toGlobal, Real.cos_pi_div_two, Real.sin_pi_div_two, sub_self,
    Real.cos_zero, Real.sin_zero, Prod.mk.injEq]
  refine ⟨⟨by ring, by ring⟩, by ring, by ring⟩

/-- One rectangle side followed by its corner, in closed form. -/
theorem rectStep (burn L : ℝ) (t : Turtle) (hb : 0 ≤ burn) :
    (corner burn (edge t L) 90 0).pos
        = (t.pos.1 + (L + burn) * t.dx - burn * t.dy,
           t.pos.2 + (L + burn) * t.dy + burn * t.dx) ∧
    (corner burn (edge t L) 90 0).dx = -t.dy ∧
    (corner burn (edge t L) 90 0).dy = t.dx := by
  obtain ⟨hp, hdx, hdy⟩ := corner90 burn (edge t L) hb
  refine ⟨?_, by rw [hdx, edge_dy], by rw [hdy, edge_dx]⟩
  rw [hp]
  simp only [toGlobal, edge_pos, edge_dx, edge_dy, Prod.mk.injEq]
  constructor <;> ring

/-- C6: for every burn value (tabs disabled),
`polyline(50, 90, 30, 90, 50, 90, 30, 90)` — a closed 50 by 30
rectangle — returns the turtle transform (position and heading) to its
initial state exactly. -/
theorem polyline_rectangle_closure (burn : ℝ) (t : Turtle) (hb : 0 ≤ burn) :
    (polyline burn t [50, 90, 30, 90, 50, 90, 30, 90]).pos = t.pos ∧
    (polyline burn t [50, 90, 30, 90, 50, 90, 30, 90]).dx = t.dx ∧
    (polyline burn t [50, 90, 30, 90, 50, 90, 30, 90]).dy = t.dy := by
  simp only [polyline]
  set s1 := corner burn (edge t 50) 90 0 with hs1
  set s2 := corner burn (edge s1 30) 90 0 with hs2
  set s3 := corner burn (edge s2 50) 90 0 with hs3
  set s4 := corner burn (edge s3 30) 90 0 with hs4
  obtain ⟨p1, x1, y1⟩ := rectStep burn 50 t hb
  obtain ⟨p2, x2, y2⟩ := rectStep burn 30 s1 hb
  obtain ⟨p3, x3, y3⟩ := rectStep burn 50 s2 hb
  obtain ⟨p4, x4, y4⟩ := rectStep burn 30 s3 hb
  rw [← hs1] at p1 x1 y1
  rw [← hs2] at p2 x2 y2
  rw [← hs3] at p3 x3 y3
  rw [← hs4] at p4 x4 y4
  refine ⟨?_, ?_, ?_⟩
  · rw [p4, x3, y3, p3, x2, y2, p2, x1, y1, p1]
    rw [Prod.ext_iff]
    constructor <;> (simp only; ring)
  · rw [x4, y3, x2, y1]
    ring
  · rw [y4, x3, y2, x1]
    ring

/-- Witness for C6 at `burn = 1` from the initial state. -/
theorem polyline_rectangle_closure_witness :
    (0 : ℝ) ≤ 1 ∧
    ((polyline 1 Turtle.init [50, 90, 30, 90, 50, 90, 30, 90]).pos
        = Turtle.init.pos ∧
     (polyline 1 Turtle.init [50, 90, 30, 90, 50, 90, 30, 90]).dx
        = Turtle.init.dx ∧
     (polyline 1 Turtle.init [50, 90, 30, 90, 50, 90, 30, 90]).dy
        = Turtle.init.dy) :=
  ⟨by norm_num, polyline_rectangle_closure 1 Turtle.init (by norm_num)⟩

/-! Claim C2: the connecting edges inserted by `edgeCorner`. -/

/-- An edge profile, reduced to the data `edgeCorner` consumes: its start
and end widths (the `startwidth()` / `endwidth()` methods of edge
objects). -/
structure Profile where
  startwidth : ℝ
  endwidth : ℝ

/-- Model of `Boxes.edgeCorner(edge1, edge2, angle)` (`__init__.py:642-649`).  The
`self.edges.get(e, e)` lookups are identities when edge objects are
passed directly.  The source draws `edge2.startwidth() * tan(angle/2)`
of straight edge, then the corner, then
`edge1.endwidth() * tan(angle/2)`. -/
noncomputable def edgeCorner (burn : ℝ) (t : Turtle) (edge1 edge2 : Profile)
    (angle : ℝ) : Turtle :=
  edge
    (corner burn
      (edge t (edge2.startwidth * Real.tan (degToRad (angle / 2)))) angle 0)
    (edge1.endwidth * Real.tan (degToRad (angle / 2)))

theorem iterate_cornerArc_segs_append (burn d radius : ℝ) :
    ∀ (n : ℕ) (t : Turtle), ∃ l,
      ((fun s => cornerArc burn s d radius)^[n] t).segs = t.segs ++ l := by
  intro n
  induction n with
  | zero => intro t; exact ⟨[], by simp⟩
  | succ n ih =>
    intro t
    obtain ⟨c, rr, h⟩ := cornerArc_segs burn t d radius
    obtain ⟨l, hl⟩ := ih (cornerArc burn t d radius)
    rw [Function.iterate_succ_apply]
    exact ⟨[Seg.arc c rr (degToRad d)] ++ l, by rw [hl, h, List.append_assoc]⟩

/-- Whatever branch `corner` takes, it only appends segments. -/
theorem corner_segs_append (burn : ℝ) (t : Turtle) (d radius : ℝ) :
    ∃ l, (corner burn t d radius).segs = t.segs ++ l := by
  rw [corner]
  split
  · exact iterate_cornerArc_segs_append burn _ radius (cornerSteps d) t
  · obtain ⟨c, rr, h⟩ := cornerArc_segs burn t d radius
    exact ⟨[Seg.arc c rr (degToRad d)], h⟩

/-- C2, counterexample to the claim as stated: with first profile
`A = (startwidth 5, endwidth 1)`, second profile
`B = (startwidth 2, endwidth 7)` and a 90 degree turn, the straight edge
drawn before the turn runs from `(0,0)` to `(2,0)` — length
`startwidth(B) * tan(45) = 2` — which differs from the claimed
`endwidth(A) * tan(45) = 1`. -/
theorem edgeCorner_before_width_counterexample :
    (edgeCorner 0 Turtle.init ⟨5, 1⟩ ⟨2, 7⟩ 90).segs.head?
        = some (Seg.line (0, 0) (2, 0)) ∧
    (2 : ℝ) ≠ (Profile.mk 5 1).endwidth * Real.tan (degToRad (90 / 2)) := by
  have htan : Real.tan (degToRad (90 / 2)) = 1 := by
    rw [show degToRad (90 / 2) = π / 4 by unfold degToRad; ring]
    exact Real.tan_pi_div_four
  constructor
  · unfold edgeCorner
    rw [htan]
    obtain ⟨l, hl⟩ :=
      corner_segs_append 0 (edge Turtle.init ((2 : ℝ) * 1)) 90 0
    rw [edge_segs, hl, edge_segs]
    simp [Turtle.init, toGlobal]
  · rw [htan]
    norm_num

/-- C2, amended: `edgeCorner(A, B, angle)` draws a straight connecting
edge of length `startwidth(B) * tan(angle/2)` BEFORE the corner turn and
one of length `endwidth(A) * tan(angle/2)` (laid along the post-turn
frame) AFTER it. -/
theorem edgeCorner_widths (burn : ℝ) (e1 e2 : Profile) (angle : ℝ) :
    (edgeCorner burn Turtle.init e1 e2 angle).segs.head?
        = some (Seg.line (0, 0)
            (e2.startwidth * Real.tan (degToRad (angle / 2)), 0)) ∧
    (edgeCorner burn Turtle.init e1 e2 angle).segs.getLast?
        = some (Seg.line
            (corner burn (edge Turtle.init
              (e2.startwidth * Real.tan (degToRad (angle / 2)))) angle 0).pos
            (toGlobal
              (corner burn (edge Turtle.init
                (e2.startwidth * Real.tan (degToRad (angle / 2)))) angle 0)
              (e1.endwidth * Real.tan (degToRad (angle / 2)), 0))) := by
  constructor
  · unfold edgeCorner
    obtain ⟨l, hl⟩ := corner_segs_append burn
      (edge Turtle.init (e2.startwidth * Real.tan (degToRad (angle / 2))))
      angle 0
    rw [edge_segs, hl, edge_segs]
    simp [Turtle.init, toGlobal]
  · unfold edgeCorner
    rw [edge_segs]
    exact List.getLast?_concat _

/-! Claims C4 and C5: the skip-drawing flag and token validation of
`Boxes.move`. -/

/-- Helper of `pySplit`: walk the characters, collecting the current
token in reverse in `acc`. -/
def pySplitAux : List Char → List Char → List String
  | [], acc => if acc.isEmpty then [] else [⟨acc.reverse⟩]
  | c :: cs, acc =>
    if c.isWhitespace then
      if acc.isEmpty then pySplitAux cs []
      else (⟨acc.reverse⟩ : String) :: pySplitAux cs []
    else pySplitAux cs (c :: acc)

/-- Python `str.split()` with no argument: split on whitespace runs and
drop the empty parts. -/
def pySplit (s : String) : List String :=
  pySplitAux s.data []

/-- The keys of the `moves` table of `Boxes.move` (`__init__.py:917-925`). -/
def movesKeys : List String :=
  ["up", "down", "left", "right", "only", "mirror", "rotated"]

/-- The observable control flow of `Boxes.move(x, y, where, before)`
(`__init__.py:890-967`): `terms = where.split()`;
`dontdraw = before and "only" in terms`; the loop over `terms` raises
`ValueError` at the first term outside the `moves` table, naming it (the
source message wraps the token in single quotes); otherwise the function
returns `dontdraw`.  The drawing and transform side effects of `move` do
not influence the returned flag or the raise and are outside the claims. -/
def move (before : Bool) (wh : String) : Except String Bool :=
  let terms := pySplit wh
  let dontdraw := before && terms.contains "only"
  match terms.find? (fun u => !(movesKeys.contains u)) with
  | some u => .error ("Unknown direction: " ++ u)
  | none => .ok dontdraw

/-- C4: with a directive made of valid tokens, `move` returns the
skip-drawing flag, and that flag is true exactly when `before` holds and
`only` is among the tokens. -/
theorem move_skip_flag (before : Bool) (wh : String)
    (h : (pySplit wh).all (fun u => movesKeys.contains u) = true) :
    move before wh = .ok (before && (pySplit wh).contains "only") := by
  have hfind : (pySplit wh).find? (fun u => !(movesKeys.contains u)) = none := by
    rw [List.find?_eq_none]
    intro u hu
    have hcon := List.all_eq_true.mp h u hu
    simp only [Bool.not_eq_true, Bool.not_eq_false]
    simpa using hcon
  unfold move
  simp only [hfind]

/-- Witness for C4: `move(w, h, "only", before=True)` skips drawing, and
the empty directive with `before=True` does not. -/
theorem move_skip_flag_witness :
    ((pySplit "only").all (fun u => movesKeys.contains u) = true) ∧
    move true "only" = .ok (true && (pySplit "only").contains "only") ∧
    ((pySplit "").all (fun u => movesKeys.contains u) = true) ∧
    move true "" = .ok (true && (pySplit "").contains "only") :=
  ⟨by decide, move_skip_flag true "only" (by decide), by decide,
    move_skip_flag true "" (by decide)⟩

/-- The first directive token outside the `moves` table, in loop order. -/
def firstBad (wh : String) : String :=
  ((pySplit wh).find? (fun u => !(movesKeys.contains u))).getD ""

/-- C5: a directive containing a token outside the valid set makes `move`
raise, and the error message names the offending token (the first one in
loop order). -/
theorem move_unknown_token_error (before : Bool) (wh : String)
    (h : (pySplit wh).all (fun u => movesKeys.contains u) = false) :
    firstBad wh ∈ pySplit wh ∧
    movesKeys.contains (firstBad wh) = false ∧
    move before wh = .error ("Unknown direction: " ++ firstBad wh) := by
  have hex : ∃ u ∈ pySplit wh, (!(movesKeys.contains u)) = true := by
    rcases List.all_eq_false.mp h with ⟨u, hu, hp⟩
    refine ⟨u, hu, ?_⟩
    rw [Bool.not_eq_true] at hp
    rw [hp]
    rfl
  have hsome : ((pySplit wh).find? (fun u => !(movesKeys.contains u))).isSome := by
    rw [List.find?_isSome]
    exact hex
  obtain ⟨u, hfind⟩ := Option.isSome_iff_exists.mp hsome
  have hmem : u ∈ pySplit wh := List.mem_of_find?_eq_some hfind
  have hbadu : (!(movesKeys.contains u)) = true :=
    @List.find?_some String (fun v => !(movesKeys.contains v)) u
      (pySplit wh) hfind
  have hfb : firstBad wh = u := by
    unfold firstBad
    rw [hfind]
    rfl
  refine ⟨by rw [hfb]; exact hmem, ?_, ?_⟩
  · rw [hfb]
    rw [Bool.not_eq_true'] at hbadu
    exact hbadu
  · unfold move
    simp only [hfind]
    rw [hfb]

/-- Witness for C5 at directive `"up bogus"`. -/
theorem move_unknown_token_error_witness :
    ((pySplit "up bogus").all (fun u => movesKeys.contains u) = false) ∧
    (firstBad "up bogus" ∈ pySplit "up bogus" ∧
     movesKeys.contains (firstBad "up bogus") = false ∧
     move true "up bogus"
        = .error ("Unknown direction: " ++ firstBad "up bogus")) :=
  ⟨by decide, move_unknown_token_error true "up bogus" (by decide)⟩

/-! Claims C3 and C9: `fillHoles` pattern handling and the random fill
loop.  The shapely geometry (polygon containment and distances) lives in
an external library; the fate of each random candidate point is
abstracted into an acceptance function, and the lattice branches into a
hole list parameter — the claims only concern the validation and loop
control flow around them. -/

/-- The hole style dispatch of `fillHoles` (`__init__.py:1397-1412`):
corner count `n` and rotation angle `a` in degrees (exact rationals), or
the unknown-style `ValueError` (with the source's stray closing
parenthesis). -/
def holeStyleParams (style : String) : Except String (ℕ × ℚ) :=
  if style = "round" then .ok (0, 0)
  else if style = "triangle" then .ok (3, 60)
  else if style = "square" then .ok (4, 0)
  else if style = "hexagon" then .ok (6, 30)
  else if style = "octagon" then .ok (8, 22.5)
  else .error ("fillHoles - unknown hole style: " ++ style ++ ")")

/-- The patterns accepted by the guard at `__init__.py:1394`. -/
def validPatterns : List String := ["random", "hex", "square", "hbar", "vbar"]

/-- State of the `pattern == "random"` loop of `fillHoles`
(`__init__.py:1456-1505`): `i` counts loop iterations (candidate
points), `misses` counts consecutive rejections, `holes` the holes
painted so far. -/
structure RandState (α : Type) where
  i : ℕ
  misses : ℕ
  holes : List α
  deriving DecidableEq

/-- One iteration of the random-fill while loop body: `i += 1`,
`misses += 1`, then an accepted candidate resets `misses` to 0 and paints
its hole, a rejected one leaves the incremented `misses` in place. -/
def randomStep (accept : ℕ → Option α) (s : RandState α) : RandState α :=
  match accept s.i with
  | some hl => ⟨s.i + 1, 0, s.holes ++ [hl]⟩
  | none => ⟨s.i + 1, s.misses + 1, s.holes⟩

/-- The loop `while i < max_random and misses < 20` with explicit fuel;
`none` means the fuel ran out with the loop still running.  The
termination theorem below shows fuel `max_random` always suffices. -/
def randomFillAux (accept : ℕ → Option α) (maxRandom : ℕ) :
    ℕ → RandState α → Option (RandState α)
  | 0, s => if s.i < maxRandom ∧ s.misses < 20 then none else some s
  | fuel + 1, s =>
    if s.i < maxRandom ∧ s.misses < 20 then
      randomFillAux accept maxRandom fuel (randomStep accept s)
    else some s

/-- The whole `pattern == "random"` branch: run the loop from
`i = 0, misses = 0` with no holes placed. -/
def randomFill (accept : ℕ → Option α) (maxRandom : ℕ) :
    Option (RandState α) :=
  randomFillAux accept maxRandom maxRandom ⟨0, 0, []⟩

theorem randomFillAux_spec (accept : ℕ → Option α) (maxRandom : ℕ) :
    ∀ (fuel : ℕ) (s : RandState α), maxRandom ≤ s.i + fuel →
      s.misses ≤ 20 → s.i ≤ maxRandom →
      ∃ u, randomFillAux accept maxRandom fuel s = some u ∧
        (maxRandom ≤ u.i ∨ 20 ≤ u.misses) ∧
        u.i ≤ maxRandom ∧ u.misses ≤ 20 := by
  intro fuel
  induction fuel with
  | zero =>
    intro s hfuel hm hi
    refine ⟨s, ?_, ?_, hi, hm⟩
    · have : ¬ (s.i < maxRandom ∧ s.misses < 20) := by
        intro hc
        omega
      simp [randomFillAux, this]
    · omega
  | succ fuel ih =>
    intro s hfuel hm hi
    by_cases hc : s.i < maxRandom ∧ s.misses < 20
    · have hstep : (randomStep accept s).i = s.i + 1 ∧
          (randomStep accept s).misses ≤ s.misses + 1 := by
        unfold randomStep
        cases accept s.i <;> simp
      obtain ⟨u, hu, hexit, hbound⟩ := ih (randomStep accept s)
        (by omega) (by omega) (by omega)
      refine ⟨u, ?_, hexit, hbound⟩
      rw [randomFillAux, if_pos hc]
      exact hu
    · refine ⟨s, ?_, ?_, hi, hm⟩
      · rw [randomFillAux, if_neg hc]
      · omega

/-- C9, amended: for every acceptance behaviour and `max_random`, the
random branch terminates (fuel `max_random` suffices for the while
loop), and it exits exactly when the candidate counter `i` has reached
`max_random` — `i` counts every attempted candidate, accepted or not —
or when 20 consecutive candidates have been rejected; the holes placed
so far are carried out as-is, no error is raised. -/
theorem randomFill_terminates (α : Type) (accept : ℕ → Option α)
    (maxRandom : ℕ) :
    ∃ u, randomFill accept maxRandom = some u ∧
      (maxRandom ≤ u.i ∨ 20 ≤ u.misses) ∧
      u.i ≤ maxRandom ∧ u.misses ≤ 20 :=
  randomFillAux_spec accept maxRandom maxRandom ⟨0, 0, []⟩
    (by simp) (by simp) (by simp)

/-- C9, counterexample to the claim as stated: with `max_random = 2` and
an acceptance behaviour that rejects candidate 0 and accepts candidate 1,
the loop terminates with only one successful placement (not
`max_random = 2` of them) and with a rejection streak of 0 (not 20): the
loop counter `i` counts candidates, not successful placements. -/
theorem randomFill_counts_attempts_counterexample :
    randomFill (fun n => if n = 1 then some 0 else (none : Option ℕ)) 2
        = some ⟨2, 0, [0]⟩ ∧
    (RandState.mk 2 0 [(0 : ℕ)]).holes.length ≠ 2 ∧
    (RandState.mk 2 0 [(0 : ℕ)]).misses < 20 := by
  decide

/-- The pattern/style validation and branch selection of
`Boxes.fillHoles(pattern, ...)` (`__init__.py:1355-1771`).  On a pattern
outside the supported list, line 1394 RETURNS silently; the
unknown-pattern raise at line 1770 is unreachable, because each listed
pattern is handled (`vbar` is rewritten to `hbar` at line 1427).  Only
an unknown style raises.  `accept` abstracts the per-candidate geometry
decisions of the random branch, `lattice` the holes computed by the
shapely based lattice branches. -/
def fillHoles (pattern style : String) (maxRandom : ℕ)
    (accept : ℕ → Option α) (lattice : List α) : Except String (List α) :=
  if pattern ∉ validPatterns then .ok []
  else
    match holeStyleParams style with
    | .error e => .error e
    | .ok _ =>
      if pattern = "random" then
        .ok (((randomFill accept maxRandom).map
          (fun s => s.holes)).getD [])
      else
        .ok lattice

/-- C3, counterexample to the claim as stated: the pattern `"no fill"`
(the default of `fillHolesSettings`) is outside the supported set, yet
`fillHoles` neither raises nor draws — it returns silently. -/
theorem fillHoles_unknown_pattern_counterexample :
    "no fill" ∉ validPatterns ∧
    fillHoles "no fill" "round" 0 (fun _ => (none : Option ℕ)) []
        = Except.ok [] := by
  constructor
  · decide
  · rfl

/-- C3, amended: for every pattern string outside
`{"random", "hex", "square", "hbar", "vbar"}`, `fillHoles` silently does
nothing: it returns without error and without emitting any hole (even
when the style is also invalid — the pattern guard runs first). -/
theorem fillHoles_unknown_pattern_silent (α : Type) (pattern style : String)
    (maxRandom : ℕ) (accept : ℕ → Option α) (lattice : List α)
    (h : pattern ∉ validPatterns) :
    fillHoles pattern style maxRandom accept lattice = Except.ok [] := by
  unfold fillHoles
  rw [if_pos h]

/-- Witness for the amended C3 at pattern `"no fill"` with an invalid
style as well. -/
theorem fillHoles_unknown_pattern_silent_witness :
    "no fill" ∉ validPatterns ∧
    fillHoles "no fill" "bogus" 3 (fun _ => some 7) [1, 2]
        = Except.ok [] :=
  ⟨by decide,
    fillHoles_unknown_pattern_silent ℕ "no fill" "bogus" 3 (fun _ => some 7)
      [1, 2] (by decide)⟩

/-! Claim C10: `hexHolesHex` always dies with `TypeError` in its second
row loop. -/

/-- A Python numeric value as far as `range` bounds are concerned.  Since
Python 3 true division of two ints always yields a float, the value
`cy / 2 + 1` is modelled as `float` carrying its exact rational value. -/
inductive PyNum where
  | int (n : ℤ)
  | float (q : ℚ)

/-- The error message of `range` applied to a float bound. -/
def pyFloatRangeErr : String :=
  "TypeError: float object cannot be interpreted as an integer"

/-- Model of `range(lo, hi)`: Python raises `TypeError` whenever the bound is a
float, integral-valued or not. -/
def pyRange (lo : ℤ) : PyNum → Except String (List ℤ)
  | .int n => .ok ((List.range (n - lo).toNat).map (fun k => lo + (k : ℤ)))
  | .float _ => .error pyFloatRangeErr

open Classical in
/-- Model of `Boxes.hexHolesHex(h)` (`__init__.py:1857-1888`) with the default
`grow = None` and hole settings of radius `r` and distance `b`.  A float
floor division feeding `int(...)` yields the floor, so
`cy = 2 * floor((h - 4*dist) / (4*w)) + 1`; `cy // 2` in the `moveTo`
is Python floor division of ints (`Int.fdiv`).  The first row loop
`range(cy)` emits `cy` holes; the second row loop bound is
`cy / 2 + 1` — true division of ints, a float — so `range` raises
`TypeError` there and the loops under it are dead code.  The
`context.rectangle(0, 0, h, h)` outline call adds no cut segment
relevant to the claims and is not recorded. -/
noncomputable def hexHolesHex (burn : ℝ) (t : Turtle) (h r b : ℝ) :
    Turtle × Except String Unit :=
  let w := r + b / 2
  let dist := w * Real.cos (π / 6)
  let cy : ℤ := 2 * ⌊(h - 4 * dist) / (4 * w)⌋ + 1
  let t1 := moveTo t (h / 2 - ((cy.fdiv 2 : ℤ) : ℝ) * 2 * w) (h / 2) 0
  let t2 := (List.range cy.toNat).foldl
    (fun s j => hole burn s (2 * (j : ℝ) * w) 0 r 0) t1
  match pyRange 1 (PyNum.float ((cy : ℚ) / 2 + 1)) with
  | .error e => (t2, .error e)
  | .ok is =>
    (is.foldl
      (fun s i =>
        (List.range (cy - i).toNat).foldl
          (fun s2 j =>
            hole burn
              (hole burn s2 ((j : ℝ) * 2 * w + (i : ℝ) * w)
                ((i : ℝ) * 2 * dist) r 0)
              ((j : ℝ) * 2 * w + (i : ℝ) * w) (-((i : ℝ) * 2 * dist)) r 0)
          s)
      t2, .ok ())

/-- C10: for every height and every settings values with nonzero
`w = r + b/2` (zero `w` would already die earlier with
`ZeroDivisionError`), `hexHolesHex` raises `TypeError` before
completing: its second row loop bound `cy / 2 + 1` is a Python float,
which `range` rejects.  The call never succeeds; the first row of holes
has already been emitted into the segment list when it fails. -/
theorem hexHolesHex_always_type_error (burn h r b : ℝ) (t : Turtle)
    (hw : r + b / 2 ≠ 0) :
    (hexHolesHex burn t h r b).2 = Except.error pyFloatRangeErr := rfl

/-- Witness for C10 at `h = 20`, `r = 1`, `b = 1`. -/
theorem hexHolesHex_always_type_error_witness :
    (1 : ℝ) + 1 / 2 ≠ 0 ∧
    (hexHolesHex 0 Turtle.init 20 1 1).2 = Except.error pyFloatRangeErr :=
  ⟨by norm_num, hexHolesHex_always_type_error 0 20 1 1 Turtle.init (by norm_num)⟩

end BoxesModel
